import Mathlib

/-!
# Verification of the d3-force-graph data pipeline (src/index.ts)

Shallow embedding of the core logic of `D3ForceGraph`:

* `preProcessData` (node/link indexing, dedup, stat table) — src/index.ts 258-323
* the render-loop interpolation section — src/index.ts 534-561
* viewport culling `getAllVisibleNodes` / `getViewPortRect` — src/index.ts 755-779
* highlight management `highlight` / `unhighlight` / `addHighLight` — 809-967

JavaScript objects used as string-keyed dictionaries are modelled as
association lists in insertion order (the iteration order of string keys of a
plain JS object).  JS numbers are modelled as `ℚ`; the one place where IEEE
division by zero matters (the interpolation blend) returns `Option` with
`none` marking that a division with zero divisor was evaluated.
-/

namespace D3ForceGraph

/-- RGBA color tuple. -/
abbrev RGBA : Type := ℚ × ℚ × ℚ × ℚ

/-- Raw input node (`GraphData.nodes` element). -/
structure RawNode where
  id : String
  name : Option String := none
  scale : Option ℚ := none
  image : Option String := none
  deriving Repr, DecidableEq

/-- Raw input link (`GraphData.links` element). -/
structure RawLink where
  source : String
  target : String
  color : Option RGBA := none
  deriving Repr, DecidableEq

/-- Per-node info stored in `nodeInfoMap` (texture fields omitted: never read
by the indexing logic). -/
structure NodeInfo where
  index : ℕ
  scale : Option ℚ := none
  image : Option String := none
  name : Option String := none
  deriving Repr, DecidableEq

/-- Lookup in a JS-object-as-dictionary modelled as an association list:
`m[k]`, returning `none` when the key is absent. -/
def lookupA {α : Type} (k : String) : List (String × α) → Option α
  | [] => none
  | (k2, v) :: rest => if k2 = k then some v else lookupA k rest

theorem lookupA_eq_none {α : Type} (k : String) :
    ∀ m : List (String × α), lookupA k m = none ↔ k ∉ m.map Prod.fst := by
  intro m
  induction m with
  | nil => simp [lookupA]
  | cons p rest ih =>
    obtain ⟨k2, v⟩ := p
    by_cases h : k2 = k <;> simp [lookupA, h, ih, Ne.symm]

theorem lookupA_mem {α : Type} (k : String) :
    ∀ m : List (String × α), ∀ v, lookupA k m = some v → (k, v) ∈ m := by
  intro m
  induction m with
  | nil => simp [lookupA]
  | cons p rest ih =>
    obtain ⟨k2, v2⟩ := p
    intro v hv
    by_cases h : k2 = k
    · subst h
      simp [lookupA] at hv
      simp [hv]
    · simp [lookupA, h] at hv
      exact List.mem_cons_of_mem _ (ih v hv)

/-! ## Node phase of `preProcessData` (src/index.ts 268-283) -/

/-- State threaded through the node loop: `result.nodes`, `result.nodeInfoMap`
and the local counter `nodeCount`. -/
structure NodeState where
  nodes : List String
  nodeInfoMap : List (String × NodeInfo)
  nodeCount : ℕ
  deriving Repr

/-- One iteration of `this.data.nodes.forEach(e => ...)`:
if `!result.nodeInfoMap[e.id]` then push the node, insert a `NodeInfo` with
index `nodeCount`, and increment `nodeCount`. -/
def stepNode (st : NodeState) (e : RawNode) : NodeState :=
  match lookupA e.id st.nodeInfoMap with
  | some _ => st
  | none =>
    { nodes := st.nodes ++ [e.id]
      nodeInfoMap := st.nodeInfoMap ++
        [(e.id, { index := st.nodeCount, scale := e.scale, image := e.image, name := e.name })]
      nodeCount := st.nodeCount + 1 }

/-- The whole node loop, starting from the empty result object. -/
def processNodes (ns : List RawNode) : NodeState :=
  ns.foldl stepNode ⟨[], [], 0⟩

/-- Reference definition following the claim wording: the ids of a list in
first-seen order, given a list of ids already seen. -/
def firstOccurrences (seen : List String) : List String → List String
  | [] => []
  | x :: xs =>
    if x ∈ seen then firstOccurrences seen xs
    else x :: firstOccurrences (seen ++ [x]) xs

theorem mem_firstOccurrences (x : String) :
    ∀ (l seen : List String), x ∈ l → x ∈ seen ∨ x ∈ firstOccurrences seen l := by
  intro l
  induction l with
  | nil => simp
  | cons y ys ih =>
    intro seen hx
    by_cases hy : y ∈ seen
    · rcases List.mem_cons.mp hx with h | h
      · exact Or.inl (h ▸ hy)
      · simpa [firstOccurrences, hy] using ih seen h
    · rcases List.mem_cons.mp hx with h | h
      · subst h
        simp [firstOccurrences, hy]
      · rcases ih (seen ++ [y]) h with h2 | h2
        · rcases List.mem_append.mp h2 with h3 | h3
          · exact Or.inl h3
          · simp [firstOccurrences, hy, List.mem_singleton.mp h3]
        · simp [firstOccurrences, hy, h2]

theorem firstOccurrences_subset (x : String) :
    ∀ (l seen : List String), x ∈ firstOccurrences seen l → x ∈ l := by
  intro l
  induction l with
  | nil => simp [firstOccurrences]
  | cons y ys ih =>
    intro seen hx
    by_cases hy : y ∈ seen
    · simp only [firstOccurrences, if_pos hy] at hx
      exact List.mem_cons_of_mem _ (ih seen hx)
    · simp only [firstOccurrences, if_neg hy] at hx
      rcases List.mem_cons.mp hx with h | h
      · simp [h]
      · exact List.mem_cons_of_mem _ (ih (seen ++ [y]) h)

/-- Invariant of the node loop: keys track `result.nodes`, stored indices are
exactly `[0, length)` in order, the counter is the length, and ids are
deduplicated. -/
def NodeInv (st : NodeState) : Prop :=
  st.nodeInfoMap.map Prod.fst = st.nodes ∧
  st.nodeInfoMap.map (fun p => p.2.index) = List.range st.nodes.length ∧
  st.nodeCount = st.nodes.length ∧
  st.nodes.Nodup

theorem nodeInv_step (st : NodeState) (e : RawNode) (h : NodeInv st) :
    NodeInv (stepNode st e) := by
  obtain ⟨hkeys, hidx, hcount, hnodup⟩ := h
  unfold stepNode
  cases hl : lookupA e.id st.nodeInfoMap with
  | some v => exact ⟨hkeys, hidx, hcount, hnodup⟩
  | none =>
    have hnotmem : e.id ∉ st.nodes := by
      have := (lookupA_eq_none e.id st.nodeInfoMap).mp hl
      rwa [hkeys] at this
    refine ⟨?_, ?_, ?_, ?_⟩
    · simp [hkeys]
    · simp [hidx, hcount, List.range_succ]
    · simp [hcount]
    · simp only [List.nodup_append, List.nodup_cons, List.nodup_nil]
      exact ⟨hnodup, by simp, by simpa [List.disjoint_right] using hnotmem⟩

theorem nodeInv_foldl (ns : List RawNode) :
    ∀ st : NodeState, NodeInv st → NodeInv (ns.foldl stepNode st) := by
  induction ns with
  | nil => intro st h; simpa using h
  | cons e es ih =>
    intro st h
    exact ih (stepNode st e) (nodeInv_step st e h)

theorem nodes_foldl_firstOcc (ns : List RawNode) :
    ∀ st : NodeState, st.nodeInfoMap.map Prod.fst = st.nodes →
      (ns.foldl stepNode st).nodes =
        st.nodes ++ firstOccurrences st.nodes (ns.map RawNode.id) := by
  induction ns with
  | nil => intro st _; simp [firstOccurrences]
  | cons e es ih =>
    intro st hkeys
    by_cases hmem : e.id ∈ st.nodes
    · have hl : lookupA e.id st.nodeInfoMap ≠ none := by
        intro hn
        have hni := (lookupA_eq_none e.id st.nodeInfoMap).mp hn
        rw [hkeys] at hni
        exact hni hmem
      cases hlv : lookupA e.id st.nodeInfoMap with
      | none => exact absurd hlv hl
      | some v =>
        have hstep : stepNode st e = st := by
          unfold stepNode; rw [hlv]
        simp only [List.foldl_cons, hstep, List.map_cons]
        rw [ih st hkeys]
        simp [firstOccurrences, hmem]
    · have hl : lookupA e.id st.nodeInfoMap = none := by
        rw [lookupA_eq_none, hkeys]; simpa using hmem
      have hstep : stepNode st e =
          { nodes := st.nodes ++ [e.id]
            nodeInfoMap := st.nodeInfoMap ++
              [(e.id, { index := st.nodeCount, scale := e.scale, image := e.image,
                        name := e.name })]
            nodeCount := st.nodeCount + 1 } := by
        unfold stepNode; rw [hl]
      simp only [List.foldl_cons, hstep, List.map_cons]
      rw [ih _ (by simp [hkeys])]
      simp [firstOccurrences, hmem, List.append_assoc]

theorem processNodes_inv (ns : List RawNode) : NodeInv (processNodes ns) :=
  nodeInv_foldl ns ⟨[], [], 0⟩ ⟨rfl, rfl, rfl, List.nodup_nil⟩

theorem processNodes_nodes (ns : List RawNode) :
    (processNodes ns).nodes = firstOccurrences [] (ns.map RawNode.id) := by
  have := nodes_foldl_firstOcc ns ⟨[], [], 0⟩ rfl
  simpa [processNodes] using this

/-- C1: Indexing assigns each distinct node id a dense integer index in
first-seen order: the first occurrence of an id creates an entry with the next
sequential index, later occurrences are ignored, and the stored indices form
the contiguous range `[0, nodeCount)` in bijection with the deduplicated ids
(the keys are exactly the deduplicated ids, without repetition, and the entry
at position `k` carries index `k`). -/
theorem nodeIndexing_firstSeen_contiguous (ns : List RawNode) :
    (processNodes ns).nodes = firstOccurrences [] (ns.map RawNode.id) ∧
    (processNodes ns).nodes.Nodup ∧
    (processNodes ns).nodeInfoMap.map Prod.fst = (processNodes ns).nodes ∧
    ((processNodes ns).nodeInfoMap.map fun p => p.2.index) =
      List.range (processNodes ns).nodes.length ∧
    (processNodes ns).nodeCount = (processNodes ns).nodes.length ∧
    ∀ e ∈ ns, e.id ∈ (processNodes ns).nodes := by
  obtain ⟨hkeys, hidx, hcount, hnodup⟩ := processNodes_inv ns
  refine ⟨processNodes_nodes ns, hnodup, hkeys, hidx, hcount, ?_⟩
  intro e he
  rw [processNodes_nodes ns]
  have hmem : e.id ∈ ns.map RawNode.id := List.mem_map_of_mem _ he
  rcases mem_firstOccurrences e.id (ns.map RawNode.id) [] hmem with h | h
  · simp at h
  · exact h

/-- Witness for C1 at a concrete input with a duplicate id. -/
theorem nodeIndexing_firstSeen_contiguous_inst :
    ({ id := "b" } : RawNode).id ∈
      (processNodes [{ id := "a" }, { id := "b" }, { id := "a" }]).nodes :=
  (nodeIndexing_firstSeen_contiguous
    [{ id := "a" }, { id := "b" }, { id := "a" }]).2.2.2.2.2
    { id := "b" } (by simp)

/-! ## Link phase of `preProcessData` (src/index.ts 285-307) -/

/-- The dedup key used by the source: `` `${e.source}-${e.target}` ``. -/
def linkKey (e : RawLink) : String := e.source ++ "-" ++ e.target

/-- `linkCountMap[e.source] = (linkCountMap[e.source] || 0) + 1` on a JS
object: first assignment appends the key, updates keep the key position. -/
def bump : List (String × ℕ) → String → List (String × ℕ)
  | [], s => [(s, 1)]
  | (k, c) :: rest, s =>
    if k = s then (k, c + 1) :: rest else (k, c) :: bump rest s

/-- The two indices the source pushes for one retained link
(`nodeInfoMap[e.source].index, nodeInfoMap[e.target].index`); empty when an
endpoint is unresolvable (that case throws, see `stepLink`). -/
def resolveIdx (nmap : List (String × NodeInfo)) (e : RawLink) : List ℕ :=
  match lookupA e.source nmap, lookupA e.target nmap with
  | some si, some ti => [si.index, ti.index]
  | _, _ => []

/-- State threaded through the link loop: `result.links`, `result.linkInfoMap`,
the local `linkBuffer` array and `linkCountMap`. -/
structure LinkState where
  links : List (String × String)
  linkInfoMap : List (String × Option RGBA)
  linkBuffer : List ℕ
  linkCountMap : List (String × ℕ)
  deriving Repr, DecidableEq

/-- One iteration of `this.data.links.forEach(e => ...)`.  Returns `none` when
`nodeInfoMap[e.source]` or `nodeInfoMap[e.target]` is `undefined`: reading
`.index` on it throws a `TypeError`, aborting the whole load. -/
def stepLink (nmap : List (String × NodeInfo)) (st : LinkState) (e : RawLink) :
    Option LinkState :=
  match lookupA (linkKey e) st.linkInfoMap with
  | some _ => some st
  | none =>
    match lookupA e.source nmap, lookupA e.target nmap with
    | some si, some ti =>
      some
        { links := st.links ++ [(e.source, e.target)]
          linkInfoMap := st.linkInfoMap ++ [(linkKey e, e.color)]
          linkBuffer := st.linkBuffer ++ [si.index, ti.index]
          linkCountMap := bump st.linkCountMap e.source }
    | _, _ => none

/-- The whole link loop; `none` models the thrown `TypeError`. -/
def processLinks (nmap : List (String × NodeInfo)) :
    List RawLink → LinkState → Option LinkState
  | [], st => some st
  | e :: es, st =>
    match stepLink nmap st e with
    | none => none
    | some st2 => processLinks nmap es st2

/-- Description of the code's dedup: keep the first link for each string key
`` `${source}-${target}` ``, given the set of keys already seen. -/
def dedupByKey (seen : List String) : List RawLink → List RawLink
  | [] => []
  | l :: ls =>
    if linkKey l ∈ seen then dedupByKey seen ls
    else l :: dedupByKey (seen ++ [linkKey l]) ls

/-- Reference definition following the claim wording: deduplicate links by
their `(source, target)` pair, keeping first occurrences. -/
def dedupByPair (seen : List (String × String)) : List RawLink → List RawLink
  | [] => []
  | l :: ls =>
    if (l.source, l.target) ∈ seen then dedupByPair seen ls
    else l :: dedupByPair (seen ++ [(l.source, l.target)]) ls

theorem lookupA_isSome_mem {α : Type} (k : String) (m : List (String × α)) (v : α)
    (h : lookupA k m = some v) : k ∈ m.map Prod.fst := by
  have hm := lookupA_mem k m v h
  exact List.mem_map_of_mem Prod.fst hm

theorem processLinks_spec (nmap : List (String × NodeInfo)) :
    ∀ (ls : List RawLink) (st st' : LinkState),
      processLinks nmap ls st = some st' →
      (st'.links = st.links ++
        (dedupByKey (st.linkInfoMap.map Prod.fst) ls).map
          (fun l => (l.source, l.target))) ∧
      (st'.linkInfoMap = st.linkInfoMap ++
        (dedupByKey (st.linkInfoMap.map Prod.fst) ls).map
          (fun l => (linkKey l, l.color))) ∧
      (st'.linkBuffer = st.linkBuffer ++
        (dedupByKey (st.linkInfoMap.map Prod.fst) ls).flatMap (resolveIdx nmap)) ∧
      (st'.linkCountMap =
        ((dedupByKey (st.linkInfoMap.map Prod.fst) ls).map RawLink.source).foldl
          bump st.linkCountMap) ∧
      ∀ l ∈ dedupByKey (st.linkInfoMap.map Prod.fst) ls, ∃ si ti,
        lookupA l.source nmap = some si ∧ lookupA l.target nmap = some ti ∧
        resolveIdx nmap l = [si.index, ti.index] := by
  intro ls
  induction ls with
  | nil =>
    intro st st' h
    simp only [processLinks, Option.some.injEq] at h
    subst h
    simp [dedupByKey]
  | cons e es ih =>
    intro st st' h
    simp only [processLinks] at h
    cases hk : lookupA (linkKey e) st.linkInfoMap with
    | some v =>
      have hkm : linkKey e ∈ st.linkInfoMap.map Prod.fst :=
        lookupA_isSome_mem _ _ _ hk
      have hstep : stepLink nmap st e = some st := by
        unfold stepLink; rw [hk]
      rw [hstep] at h
      have hspec := ih st st' h
      simpa [dedupByKey, hkm] using hspec
    | none =>
      have hkm : linkKey e ∉ st.linkInfoMap.map Prod.fst :=
        (lookupA_eq_none _ _).mp hk
      cases hs : lookupA e.source nmap with
      | none =>
        have hstep : stepLink nmap st e = none := by
          unfold stepLink; rw [hk, hs]
        rw [hstep] at h
        exact absurd h (by simp)
      | some si =>
        cases ht : lookupA e.target nmap with
        | none =>
          have hstep : stepLink nmap st e = none := by
            unfold stepLink; rw [hk, hs, ht]
          rw [hstep] at h
          exact absurd h (by simp)
        | some ti =>
          have hstep : stepLink nmap st e = some
              { links := st.links ++ [(e.source, e.target)]
                linkInfoMap := st.linkInfoMap ++ [(linkKey e, e.color)]
                linkBuffer := st.linkBuffer ++ [si.index, ti.index]
                linkCountMap := bump st.linkCountMap e.source } := by
            unfold stepLink; rw [hk, hs, ht]
          rw [hstep] at h
          have hspec := ih _ st' h
          obtain ⟨h1, h2, h3, h4, h5⟩ := hspec
          have hres : resolveIdx nmap e = [si.index, ti.index] := by
            unfold resolveIdx; rw [hs, ht]
          refine ⟨?_, ?_, ?_, ?_, ?_⟩
          · rw [h1]; simp [dedupByKey, hkm, List.append_assoc]
          · rw [h2]; simp [dedupByKey, hkm, List.append_assoc]
          · rw [h3]; simp [dedupByKey, hkm, hres, List.append_assoc]
          · rw [h4]; simp [dedupByKey, hkm]
          · intro l hl
            simp only [dedupByKey, if_neg hkm, List.mem_cons] at hl
            rcases hl with hl | hl
            · subst hl; exact ⟨si, ti, hs, ht, hres⟩
            · have := h5 l (by simpa using hl)
              exact this

theorem processLinks_total (nmap : List (String × NodeInfo)) :
    ∀ (ls : List RawLink) (st : LinkState),
      (∀ l ∈ ls, (lookupA l.source nmap).isSome ∧ (lookupA l.target nmap).isSome) →
      (processLinks nmap ls st).isSome := by
  intro ls
  induction ls with
  | nil => intro st _; simp [processLinks]
  | cons e es ih =>
    intro st hok
    simp only [processLinks]
    cases hk : lookupA (linkKey e) st.linkInfoMap with
    | some v =>
      have hstep : stepLink nmap st e = some st := by
        unfold stepLink; rw [hk]
      rw [hstep]
      exact ih st (fun l hl => hok l (List.mem_cons_of_mem _ hl))
    | none =>
      obtain ⟨hs, ht⟩ := hok e (List.mem_cons_self e es)
      cases hsv : lookupA e.source nmap with
      | none => rw [hsv] at hs; simp at hs
      | some si =>
        cases htv : lookupA e.target nmap with
        | none => rw [htv] at ht; simp at ht
        | some ti =>
          have hstep : stepLink nmap st e = some
              { links := st.links ++ [(e.source, e.target)]
                linkInfoMap := st.linkInfoMap ++ [(linkKey e, e.color)]
                linkBuffer := st.linkBuffer ++ [si.index, ti.index]
                linkCountMap := bump st.linkCountMap e.source } := by
            unfold stepLink; rw [hk, hsv, htv]
          rw [hstep]
          exact ih _ (fun l hl => hok l (List.mem_cons_of_mem _ hl))

/-! ## Stat table (src/index.ts 309-320) and the assembled `preProcessData` -/

/-- Stable insertion of one entry into a list sorted by count descending:
the entry goes after every earlier entry with a count `≥` its own.  This is
the unique behaviour of the ES2019 stable `sort((a, b) => b.count - a.count)`
on the insertion-ordered key list. -/
def insertEntry (x : String × ℕ) : List (String × ℕ) → List (String × ℕ)
  | [] => [x]
  | y :: ys => if x.2 ≤ y.2 then y :: insertEntry x ys else x :: y :: ys

/-- `Object.keys(linkCountMap).map(e => ({source: e, count: linkCountMap[e]}))`
followed by the stable descending sort by `count` and the truncation
`if(length > 20) length = 20`. -/
def statTableOf (m : List (String × ℕ)) : List (String × ℕ) :=
  let entries := (m.map Prod.fst).map fun k => (k, (lookupA k m).getD 0)
  let sorted := entries.foldl (fun acc x => insertEntry x acc) []
  if 20 < sorted.length then sorted.take 20 else sorted

/-- The `ProcessedData` result object (texture fields omitted). -/
structure ProcessedData where
  nodes : List String
  links : List (String × String)
  nodeInfoMap : List (String × NodeInfo)
  linkInfoMap : List (String × Option RGBA)
  linkBuffer : List ℕ
  statTable : List (String × ℕ)
  deriving Repr, DecidableEq

/-- `preProcessData` (src/index.ts 258-323): node loop, then link loop
(`none` models the `TypeError` thrown on a link whose endpoint id has no
`nodeInfoMap` entry), then the stat table. -/
def preProcessData (nodes : List RawNode) (links : List RawLink) :
    Option ProcessedData :=
  match processLinks (processNodes nodes).nodeInfoMap links ⟨[], [], [], []⟩ with
  | none => none
  | some lst =>
    some
      { nodes := (processNodes nodes).nodes
        links := lst.links
        nodeInfoMap := (processNodes nodes).nodeInfoMap
        linkInfoMap := lst.linkInfoMap
        linkBuffer := lst.linkBuffer
        statTable := statTableOf lst.linkCountMap }

theorem preProcessData_eq (nodes : List RawNode) (links : List RawLink)
    (r : ProcessedData) (h : preProcessData nodes links = some r) :
    ∃ lst, processLinks (processNodes nodes).nodeInfoMap links ⟨[], [], [], []⟩ =
        some lst ∧
      r.nodes = (processNodes nodes).nodes ∧
      r.nodeInfoMap = (processNodes nodes).nodeInfoMap ∧
      r.links = lst.links ∧ r.linkInfoMap = lst.linkInfoMap ∧
      r.linkBuffer = lst.linkBuffer ∧
      r.statTable = statTableOf lst.linkCountMap := by
  unfold preProcessData at h
  cases hp : processLinks (processNodes nodes).nodeInfoMap links ⟨[], [], [], []⟩ with
  | none => rw [hp] at h; simp at h
  | some lst =>
    rw [hp] at h
    simp only [Option.some.injEq] at h
    exact ⟨lst, rfl, by simp [← h]⟩

/-! ## Claims C2 and C3 -/

/-- Input exhibiting the key collision: the two links have distinct
`(source, target)` pairs but the same dedup key `"a-b-c"`. -/
def c2nodes : List RawNode :=
  [{ id := "a" }, { id := "b-c" }, { id := "a-b" }, { id := "c" }]

/-- The two colliding links; both endpoints of both links exist as nodes. -/
def c2links : List RawLink :=
  [{ source := "a", target := "b-c" }, { source := "a-b", target := "c" }]

/-- C2 counterexample: dedup is by the string key `` `${source}-${target}` ``,
not by the `(source, target)` pair.  On `c2links` the two links have distinct
pairs and valid endpoints, yet the code keeps only the first: the output holds
one link (and a two-entry buffer) where pair-dedup retains two. -/
theorem linkDedup_pair_counterexample :
    (preProcessData c2nodes c2links).map ProcessedData.links = some [("a", "b-c")] ∧
    (preProcessData c2nodes c2links).map ProcessedData.linkBuffer = some [0, 1] ∧
    (dedupByPair [] c2links).map (fun l => (l.source, l.target)) =
      [("a", "b-c"), ("a-b", "c")] ∧
    (lookupA "a-b" (processNodes c2nodes).nodeInfoMap).isSome = true ∧
    (lookupA "c" (processNodes c2nodes).nodeInfoMap).isSome = true := by
  refine ⟨?_, ?_, ?_, ?_, ?_⟩ <;> decide

/-- C2 (amended): for every input whose links all reference existing node ids,
indexing collapses links sharing the string key `` `${source}-${target}` `` to
a single link (first occurrence wins, including its color; distinct pairs
whose keys coincide also collapse), and the link buffer holds exactly the two
resolved indices — source index then target index — per retained link, in
retained-link order. -/
theorem linkDedup_byKey_buffer_aligned (nodes : List RawNode)
    (links : List RawLink)
    (h : ∀ l ∈ links, (lookupA l.source (processNodes nodes).nodeInfoMap).isSome ∧
        (lookupA l.target (processNodes nodes).nodeInfoMap).isSome) :
    ∃ r, preProcessData nodes links = some r ∧
      r.links = (dedupByKey [] links).map (fun l => (l.source, l.target)) ∧
      r.linkInfoMap = (dedupByKey [] links).map (fun l => (linkKey l, l.color)) ∧
      r.linkBuffer = (dedupByKey [] links).flatMap (resolveIdx r.nodeInfoMap) ∧
      ∀ l ∈ dedupByKey [] links, ∃ si ti,
        lookupA l.source r.nodeInfoMap = some si ∧
        lookupA l.target r.nodeInfoMap = some ti ∧
        resolveIdx r.nodeInfoMap l = [si.index, ti.index] := by
  have htot := processLinks_total (processNodes nodes).nodeInfoMap links
    ⟨[], [], [], []⟩ h
  cases hp : processLinks (processNodes nodes).nodeInfoMap links ⟨[], [], [], []⟩ with
  | none => rw [hp] at htot; simp at htot
  | some lst =>
    obtain ⟨h1, h2, h3, h4, h5⟩ := processLinks_spec _ links _ lst hp
    refine ⟨{ nodes := (processNodes nodes).nodes
              links := lst.links
              nodeInfoMap := (processNodes nodes).nodeInfoMap
              linkInfoMap := lst.linkInfoMap
              linkBuffer := lst.linkBuffer
              statTable := statTableOf lst.linkCountMap }, ?_, ?_, ?_, ?_, ?_⟩
    · unfold preProcessData; rw [hp]
    · simpa using h1
    · simpa using h2
    · simpa using h3
    · intro l hl
      exact h5 l (by simpa using hl)

/-- Witness input for C2 (amended): a duplicate link and a reverse link. -/
def w2nodes : List RawNode := [{ id := "a" }, { id := "b" }]

/-- Witness links for C2 (amended). -/
def w2links : List RawLink :=
  [{ source := "a", target := "b" }, { source := "a", target := "b" },
   { source := "b", target := "a" }]

/-- Witness for C2 (amended) at a concrete input. -/
theorem linkDedup_byKey_buffer_aligned_inst :
    ∃ r, preProcessData w2nodes w2links = some r ∧
      r.links = (dedupByKey [] w2links).map (fun l => (l.source, l.target)) := by
  obtain ⟨r, h1, h2, -, -, -⟩ :=
    linkDedup_byKey_buffer_aligned w2nodes w2links (by decide)
  exact ⟨r, h1, h2⟩

/-- C3: the load never silently indexes out of bounds.  Whenever the load does
not abort (the `TypeError` on a fresh-key dangling link is modelled by
`preProcessData = none`), every value in the link buffer is a valid node index
`< nodeCount`, and every link referencing a non-existent node id has been
dropped. -/
theorem danglingLink_abort_or_drop (nodes : List RawNode) (links : List RawLink)
    (r : ProcessedData) (h : preProcessData nodes links = some r) :
    (∀ v ∈ r.linkBuffer, v < r.nodes.length) ∧
    ∀ l ∈ links,
      (l.source ∉ nodes.map RawNode.id ∨ l.target ∉ nodes.map RawNode.id) →
      (l.source, l.target) ∉ r.links := by
  obtain ⟨lst, hp, hrn, hrm, hrl, hri, hrb, hrs⟩ := preProcessData_eq nodes links r h
  obtain ⟨hkeys, hidx, hcount, hnodup⟩ := processNodes_inv nodes
  obtain ⟨h1, h2, h3, h4, h5⟩ := processLinks_spec _ links _ lst hp
  have hlt : ∀ (k : String) (si : NodeInfo),
      lookupA k (processNodes nodes).nodeInfoMap = some si →
      si.index < (processNodes nodes).nodes.length := by
    intro k si hk
    have hm := lookupA_mem k _ si hk
    have hmm : si.index ∈ (processNodes nodes).nodeInfoMap.map fun p => p.2.index :=
      List.mem_map_of_mem _ hm
    rw [hidx] at hmm
    exact List.mem_range.mp hmm
  have hink : ∀ (k : String) (si : NodeInfo),
      lookupA k (processNodes nodes).nodeInfoMap = some si →
      k ∈ nodes.map RawNode.id := by
    intro k si hk
    have hmem := lookupA_isSome_mem k _ si hk
    rw [hkeys, processNodes_nodes] at hmem
    exact firstOccurrences_subset k _ [] hmem
  constructor
  · intro v hv
    rw [hrb, h3] at hv
    simp only [List.nil_append, List.mem_flatMap] at hv
    obtain ⟨l, hl, hvl⟩ := hv
    obtain ⟨si, ti, hs, ht, hres⟩ := h5 l (by simpa using hl)
    rw [hres] at hvl
    rw [hrn]
    simp only [List.mem_cons, List.not_mem_nil, or_false] at hvl
    rcases hvl with hvl | hvl
    · rw [hvl]; exact hlt _ _ hs
    · rw [hvl]; exact hlt _ _ ht
  · intro l hl hdang hmem
    rw [hrl, h1] at hmem
    simp only [List.nil_append, List.mem_map] at hmem
    obtain ⟨l2, hl2, hpair⟩ := hmem
    obtain ⟨si, ti, hs, ht, -⟩ := h5 l2 (by simpa using hl2)
    have hseq : l2.source = l.source := congrArg Prod.fst hpair
    have hteq : l2.target = l.target := congrArg Prod.snd hpair
    rcases hdang with hd | hd
    · exact hd (hseq ▸ hink _ _ hs)
    · exact hd (hteq ▸ hink _ _ ht)

/-- Witness nodes for C3: the second link is dangling but shares the valid
first link's key, so the load succeeds and drops it. -/
def c3nodes : List RawNode := [{ id := "a" }, { id := "b-x" }]

/-- Witness links for C3. -/
def c3links : List RawLink :=
  [{ source := "a", target := "b-x" }, { source := "a-b", target := "x" }]

/-- Witness for C3 at a concrete input containing a dangling link. -/
theorem danglingLink_abort_or_drop_inst :
    ∃ r, preProcessData c3nodes c3links = some r ∧
      (∀ v ∈ r.linkBuffer, v < r.nodes.length) ∧
      ("a-b", "x") ∉ r.links := by
  cases hE : preProcessData c3nodes c3links with
  | none => exact absurd hE (by decide)
  | some r =>
    have hsp := danglingLink_abort_or_drop c3nodes c3links r hE
    refine ⟨r, rfl, hsp.1, ?_⟩
    exact hsp.2 { source := "a-b", target := "x" } (by decide) (Or.inl (by decide))

/-! ## Claim C8: the degree ranking -/

/-- Number of occurrences of an id in a list (used for out-degree counting). -/
def countOcc (s : String) : List String → ℕ
  | [] => 0
  | x :: xs => (if x = s then 1 else 0) + countOcc s xs

/-- Position of the first occurrence of an id in a list. -/
def posIn (s : String) : List String → ℕ
  | [] => 0
  | x :: xs => if x = s then 0 else posIn s xs + 1

/-- `m[k] || 0` on the count map. -/
def lookupOrZero (k : String) (m : List (String × ℕ)) : ℕ := (lookupA k m).getD 0

theorem bump_keys (s : String) :
    ∀ m : List (String × ℕ), (bump m s).map Prod.fst =
      if s ∈ m.map Prod.fst then m.map Prod.fst else m.map Prod.fst ++ [s] := by
  intro m
  induction m with
  | nil => simp [bump]
  | cons p rest ih =>
    obtain ⟨k, c⟩ := p
    by_cases hk : k = s
    · simp [bump, hk]
    · have hne : ¬s = k := fun hh => hk hh.symm
      by_cases hmem : s ∈ rest.map Prod.fst
      · simp [bump, hk, hmem, hne, ih]
      · simp [bump, hk, hmem, hne, ih]

theorem bump_lookupOrZero (s k : String) :
    ∀ m : List (String × ℕ),
      lookupOrZero k (bump m s) = lookupOrZero k m + (if s = k then 1 else 0) := by
  intro m
  induction m with
  | nil =>
    by_cases h : s = k <;> simp [bump, lookupOrZero, lookupA, h]
  | cons p rest ih =>
    obtain ⟨k2, c⟩ := p
    by_cases h2 : k2 = s
    · subst h2
      by_cases hk : k2 = k
      · subst hk; simp [bump, lookupOrZero, lookupA]
      · have : ¬k2 = k := hk
        simp [bump, lookupOrZero, lookupA, this]
    · by_cases hk : k2 = k
      · subst hk
        have : ¬s = k2 := fun hh => h2 hh.symm
        simp [bump, h2, lookupOrZero, lookupA, this]
      · simp [bump, h2, lookupOrZero, lookupA, hk]
        exact ih

theorem bump_keys_nodup (s : String) (m : List (String × ℕ))
    (h : (m.map Prod.fst).Nodup) : ((bump m s).map Prod.fst).Nodup := by
  rw [bump_keys]
  by_cases hmem : s ∈ m.map Prod.fst
  · simpa [hmem] using h
  · simp only [hmem, if_false, List.nodup_append, List.nodup_cons, List.nodup_nil]
    exact ⟨h, by simp, by simpa [List.disjoint_right] using hmem⟩

theorem countFold_keys :
    ∀ (srcs : List String) (m : List (String × ℕ)),
      (srcs.foldl bump m).map Prod.fst =
        m.map Prod.fst ++ firstOccurrences (m.map Prod.fst) srcs := by
  intro srcs
  induction srcs with
  | nil => intro m; simp [firstOccurrences]
  | cons s ss ih =>
    intro m
    by_cases hmem : s ∈ m.map Prod.fst
    · have hb : (bump m s).map Prod.fst = m.map Prod.fst := by
        rw [bump_keys]; simp [hmem]
      simp only [List.foldl_cons]
      rw [ih (bump m s), hb]
      simp [firstOccurrences, hmem]
    · have hb : (bump m s).map Prod.fst = m.map Prod.fst ++ [s] := by
        rw [bump_keys]; simp [hmem]
      simp only [List.foldl_cons]
      rw [ih (bump m s), hb]
      simp [firstOccurrences, hmem, List.append_assoc]

theorem countFold_lookup (k : String) :
    ∀ (srcs : List String) (m : List (String × ℕ)),
      lookupOrZero k (srcs.foldl bump m) = lookupOrZero k m + countOcc k srcs := by
  intro srcs
  induction srcs with
  | nil => intro m; simp [countOcc]
  | cons s ss ih =>
    intro m
    simp only [List.foldl_cons, countOcc]
    rw [ih (bump m s), bump_lookupOrZero]
    omega

theorem countFold_nodup :
    ∀ (srcs : List String) (m : List (String × ℕ)),
      (m.map Prod.fst).Nodup → ((srcs.foldl bump m).map Prod.fst).Nodup := by
  intro srcs
  induction srcs with
  | nil => intro m h; simpa using h
  | cons s ss ih =>
    intro m h
    exact ih (bump m s) (bump_keys_nodup s m h)

theorem mem_insertEntry (x z : String × ℕ) :
    ∀ acc : List (String × ℕ), z ∈ insertEntry x acc ↔ z = x ∨ z ∈ acc := by
  intro acc
  induction acc with
  | nil => simp [insertEntry]
  | cons y ys ih =>
    by_cases hle : x.2 ≤ y.2
    · simp only [insertEntry, if_pos hle, List.mem_cons, ih]
      tauto
    · simp only [insertEntry, if_neg hle, List.mem_cons]

theorem length_insertEntry (x : String × ℕ) :
    ∀ acc : List (String × ℕ), (insertEntry x acc).length = acc.length + 1 := by
  intro acc
  induction acc with
  | nil => simp [insertEntry]
  | cons y ys ih =>
    by_cases hle : x.2 ≤ y.2 <;> simp [insertEntry, hle, ih]

theorem insertEntry_pairwise (rk : String × ℕ → ℕ) (x : String × ℕ) :
    ∀ acc : List (String × ℕ),
      acc.Pairwise (fun a b => b.2 ≤ a.2 ∧ (a.2 = b.2 → rk a < rk b)) →
      (∀ y ∈ acc, rk y < rk x) →
      (insertEntry x acc).Pairwise
        (fun a b => b.2 ≤ a.2 ∧ (a.2 = b.2 → rk a < rk b)) := by
  intro acc
  induction acc with
  | nil => intro _ _; simp [insertEntry]
  | cons y ys ih =>
    intro hpw hrk
    rw [List.pairwise_cons] at hpw
    obtain ⟨hy, hys⟩ := hpw
    by_cases hle : x.2 ≤ y.2
    · rw [insertEntry, if_pos hle, List.pairwise_cons]
      constructor
      · intro z hz
        rcases (mem_insertEntry x z ys).mp hz with hz | hz
        · subst hz
          exact ⟨hle, fun _ => hrk y (List.mem_cons_self y ys)⟩
        · exact hy z hz
      · exact ih hys (fun y2 hy2 => hrk y2 (List.mem_cons_of_mem _ hy2))
    · have hlt : y.2 < x.2 := lt_of_not_le hle
      rw [insertEntry, if_neg hle, List.pairwise_cons]
      constructor
      · intro z hz
        rcases List.mem_cons.mp hz with hz | hz
        · subst hz
          exact ⟨le_of_lt hlt, fun heq => absurd heq.symm (ne_of_lt hlt)⟩
        · have hzy := hy z hz
          have hzlt : z.2 < x.2 := lt_of_le_of_lt hzy.1 hlt
          exact ⟨le_of_lt hzlt, fun heq => absurd heq.symm (ne_of_lt hzlt)⟩
      · exact List.pairwise_cons.mpr ⟨hy, hys⟩

theorem insertionFold_pairwise (rk : String × ℕ → ℕ) :
    ∀ (l acc : List (String × ℕ)),
      acc.Pairwise (fun a b => b.2 ≤ a.2 ∧ (a.2 = b.2 → rk a < rk b)) →
      l.Pairwise (fun a b => rk a < rk b) →
      (∀ y ∈ acc, ∀ x ∈ l, rk y < rk x) →
      (l.foldl (fun acc x => insertEntry x acc) acc).Pairwise
        (fun a b => b.2 ≤ a.2 ∧ (a.2 = b.2 → rk a < rk b)) := by
  intro l
  induction l with
  | nil => intro acc hacc _ _; simpa using hacc
  | cons x xs ih =>
    intro acc hacc hl hmix
    rw [List.pairwise_cons] at hl
    obtain ⟨hx, hxs⟩ := hl
    simp only [List.foldl_cons]
    refine ih (insertEntry x acc) ?_ hxs ?_
    · exact insertEntry_pairwise rk x acc hacc
        (fun y hy => hmix y hy x (List.mem_cons_self x xs))
    · intro y hy z hz
      rcases (mem_insertEntry x y acc).mp hy with hy2 | hy2
      · subst hy2; exact hx z hz
      · exact hmix y hy2 z (List.mem_cons_of_mem _ hz)

theorem mem_insertionFold (z : String × ℕ) :
    ∀ (l acc : List (String × ℕ)),
      z ∈ l.foldl (fun acc x => insertEntry x acc) acc ↔ z ∈ acc ∨ z ∈ l := by
  intro l
  induction l with
  | nil => intro acc; simp
  | cons x xs ih =>
    intro acc
    simp only [List.foldl_cons, ih, mem_insertEntry, List.mem_cons]
    tauto

theorem length_insertionFold :
    ∀ (l acc : List (String × ℕ)),
      (l.foldl (fun acc x => insertEntry x acc) acc).length =
        acc.length + l.length := by
  intro l
  induction l with
  | nil => intro acc; simp
  | cons x xs ih =>
    intro acc
    simp only [List.foldl_cons, ih, length_insertEntry, List.length_cons]
    omega

theorem nodup_pairwise_posIn :
    ∀ D : List String, D.Nodup → D.Pairwise (fun a b => posIn a D < posIn b D) := by
  intro D
  induction D with
  | nil => intro _; simp
  | cons x xs ih =>
    intro hnd
    rw [List.nodup_cons] at hnd
    obtain ⟨hx, hxs⟩ := hnd
    rw [List.pairwise_cons]
    constructor
    · intro b hb
      have hbx : ¬b = x := fun hh => hx (hh ▸ hb)
      have hxb : ¬x = b := fun hh => hbx hh.symm
      simp [posIn, hxb]
    · have hpw := ih hxs
      refine hpw.imp_of_mem ?_
      intro a b ha hb hab
      have hax : ¬x = a := fun hh => hx (hh ▸ ha)
      have hbx : ¬x = b := fun hh => hx (hh ▸ hb)
      simp [posIn, hax, hbx]
      omega

theorem statTableOf_props (m : List (String × ℕ))
    (hnd : (m.map Prod.fst).Nodup) :
    (statTableOf m).length ≤ 20 ∧
    (∀ p ∈ statTableOf m, p.1 ∈ m.map Prod.fst ∧ p.2 = lookupOrZero p.1 m) ∧
    (statTableOf m).Pairwise (fun a b => b.2 ≤ a.2) ∧
    (statTableOf m).Pairwise (fun a b => a.2 = b.2 →
      posIn a.1 (m.map Prod.fst) < posIn b.1 (m.map Prod.fst)) ∧
    ((m.map Prod.fst).length ≤ 20 →
      ∀ k ∈ m.map Prod.fst, k ∈ (statTableOf m).map Prod.fst) := by
  have hpwD := nodup_pairwise_posIn (m.map Prod.fst) hnd
  have hepw : ((m.map Prod.fst).map fun k => (k, (lookupA k m).getD 0)).Pairwise
      (fun a b : String × ℕ =>
        posIn a.1 (m.map Prod.fst) < posIn b.1 (m.map Prod.fst)) :=
    List.pairwise_map.mpr hpwD
  have hsortpw := insertionFold_pairwise (fun p => posIn p.1 (m.map Prod.fst))
    ((m.map Prod.fst).map fun k => (k, (lookupA k m).getD 0)) []
    List.Pairwise.nil hepw (by simp)
  have hsub : (statTableOf m).Sublist
      (((m.map Prod.fst).map fun k => (k, (lookupA k m).getD 0)).foldl
        (fun acc x => insertEntry x acc) []) := by
    simp only [statTableOf]
    split
    · exact List.take_sublist _ _
    · exact List.Sublist.refl _
  have hslen : (((m.map Prod.fst).map fun k => (k, (lookupA k m).getD 0)).foldl
      (fun acc x => insertEntry x acc) []).length = (m.map Prod.fst).length := by
    rw [length_insertionFold]
    simp
  refine ⟨?_, ?_, ?_, ?_, ?_⟩
  · simp only [statTableOf]
    split
    · simp [List.length_take]
    · omega
  · intro p hp
    have hps := hsub.subset hp
    rw [mem_insertionFold] at hps
    rcases hps with hps | hps
    · simp at hps
    · obtain ⟨k, hk, hkp⟩ := List.mem_map.mp hps
      constructor
      · rw [← hkp]; exact hk
      · rw [← hkp]; simp [lookupOrZero]
  · exact (hsortpw.imp (fun h => h.1)).sublist hsub
  · exact (hsortpw.imp (fun h => h.2)).sublist hsub
  · intro hle k hk
    have hnottr : ¬20 < (((m.map Prod.fst).map fun k => (k, (lookupA k m).getD 0)).foldl
        (fun acc x => insertEntry x acc) []).length := by
      rw [hslen]; omega
    have hst : statTableOf m = ((m.map Prod.fst).map
        fun k => (k, (lookupA k m).getD 0)).foldl (fun acc x => insertEntry x acc) [] := by
      simp only [statTableOf]
      rw [if_neg hnottr]
    have hmem : (k, (lookupA k m).getD 0) ∈ statTableOf m := by
      rw [hst, mem_insertionFold]
      exact Or.inr (List.mem_map_of_mem _ hk)
    exact List.mem_map_of_mem Prod.fst hmem

/-- C8: the degree ranking counts outgoing links over the deduplicated link
list per source id, is sorted non-increasing by that count, breaks ties by the
sources' first-seen order among retained links, has at most 20 entries, and
(when no truncation happens) contains every source. -/
theorem statTable_ranking (nodes : List RawNode) (links : List RawLink)
    (r : ProcessedData) (h : preProcessData nodes links = some r) :
    r.statTable.length ≤ 20 ∧
    (∀ p ∈ r.statTable, p.2 = countOcc p.1 (r.links.map Prod.fst)) ∧
    r.statTable.Pairwise (fun a b => b.2 ≤ a.2) ∧
    r.statTable.Pairwise (fun a b => a.2 = b.2 →
      posIn a.1 (firstOccurrences [] (r.links.map Prod.fst)) <
        posIn b.1 (firstOccurrences [] (r.links.map Prod.fst))) ∧
    ((firstOccurrences [] (r.links.map Prod.fst)).length ≤ 20 →
      ∀ s ∈ r.links.map Prod.fst, s ∈ r.statTable.map Prod.fst) := by
  obtain ⟨lst, hp, hrn, hrm, hrl, hri, hrb, hrs⟩ := preProcessData_eq nodes links r h
  obtain ⟨h1, h2, h3, h4, h5⟩ := processLinks_spec _ links _ lst hp
  have hsrcs : r.links.map Prod.fst = (dedupByKey [] links).map RawLink.source := by
    rw [hrl, h1]
    simp [List.map_map]
  have hm : lst.linkCountMap =
      ((dedupByKey [] links).map RawLink.source).foldl bump [] := by
    simpa using h4
  have hkeysm : lst.linkCountMap.map Prod.fst =
      firstOccurrences [] ((dedupByKey [] links).map RawLink.source) := by
    rw [hm]
    simpa using countFold_keys ((dedupByKey [] links).map RawLink.source) []
  have hnd : (lst.linkCountMap.map Prod.fst).Nodup := by
    rw [hm]
    exact countFold_nodup _ [] (by simp)
  obtain ⟨hlen, hmemv, hpw1, hpw2, hcompl⟩ := statTableOf_props lst.linkCountMap hnd
  rw [hrs]
  refine ⟨hlen, ?_, hpw1, ?_, ?_⟩
  · intro p hp2
    obtain ⟨hk, hv⟩ := hmemv p hp2
    rw [hv, hsrcs, hm]
    rw [countFold_lookup p.1 ((dedupByKey [] links).map RawLink.source) []]
    simp [lookupOrZero, lookupA]
  · simp only [hsrcs, ← hkeysm]
    exact hpw2
  · simp only [hsrcs, ← hkeysm]
    intro hle s hs
    have hsD : s ∈ lst.linkCountMap.map Prod.fst := by
      rw [hkeysm]
      rcases mem_firstOccurrences s _ [] hs with hh | hh
      · simp at hh
      · exact hh
    exact hcompl hle s hsD

/-- Witness nodes for C8 (the spec §8 example scenario). -/
def w8nodes : List RawNode := [{ id := "a" }, { id := "b" }, { id := "c" }]

/-- Witness links for C8. -/
def w8links : List RawLink :=
  [{ source := "a", target := "b" }, { source := "a", target := "b" },
   { source := "a", target := "c" }]

/-- Witness for C8 at the spec's example: ranking is `[("a", 2)]`. -/
theorem statTable_ranking_inst :
    ∃ r, preProcessData w8nodes w8links = some r ∧
      r.statTable.length ≤ 20 ∧ r.statTable = [("a", 2)] := by
  cases hE : preProcessData w8nodes w8links with
  | none => exact absurd hE (by decide)
  | some r =>
    refine ⟨r, rfl, (statTable_ranking w8nodes w8links r hE).1, ?_⟩
    have h2 : (preProcessData w8nodes w8links).map ProcessedData.statTable =
        some [("a", 2)] := by decide
    rw [hE] at h2
    simpa using h2

/-! ## Render-loop interpolation (src/index.ts 534-561) and camera clamp -/

/-- JS float division, modelled on `ℚ` with its one partiality point made
explicit: a zero divisor yields a non-finite IEEE value (`Infinity`/`NaN`),
modelled as `none`. -/
def jsDiv (a b : ℚ) : Option ℚ := if b = 0 then none else some (a / b)

/-- One coordinate of the blend loop (line 550):
`(target[i] - cache[i]) / intervalTime * stepTime + cache[i]`. -/
def blendCoord (intervalTime stepTime c t : ℚ) : Option ℚ :=
  (jsDiv (t - c) intervalTime).map fun q => q * stepTime + c

/-- Evaluate an option-valued function over a list of indices, propagating the
undefined-arithmetic marker. -/
def optionMapList (f : ℕ → Option ℚ) : List ℕ → Option (List ℚ)
  | [] => some []
  | i :: is =>
    match f i, optionMapList f is with
    | some v, some vs => some (v :: vs)
    | _, _ => none

/-- The whole blend loop (lines 549-551): runs over the indices of
`currentPositionStatus`. -/
def blendBuffer (intervalTime stepTime : ℚ) (cached target : List ℚ)
    (len : ℕ) : Option (List ℚ) :=
  optionMapList
    (fun j => blendCoord intervalTime stepTime (cached.getD j 0) (target.getD j 0))
    (List.range len)

/-- The position-interpolation section of `render` (lines 543-561): regime
selection `nodeCounts > 1000`, the `stepTime <= intervalTime` blend, the
post-layout snap check `!layouting && current[0] !== target[0]`, and the
direct assignment `currentPositionStatus = targetPositionStatus` in the small
regime.  Returns the new `currentPositionStatus`, or `none` when a division
by a zero interval was evaluated. -/
def renderInterpolate (nodeCounts : ℕ) (intervalTime stepTime : ℚ)
    (layouting : Bool) (cached target current : List ℚ) : Option (List ℚ) :=
  if 1000 < nodeCounts then
    match (if stepTime ≤ intervalTime then
        blendBuffer intervalTime stepTime cached target current.length
      else some current) with
    | none => none
    | some cur1 =>
      if layouting = false ∧ cur1.getD 0 0 ≠ target.getD 0 0 then some target
      else some cur1
  else some target

/-- Camera distance clamp at the top of `render` (lines 536-542). -/
def clampCameraZ (z : ℚ) : ℚ :=
  let z1 := if z < 75 then 75 else z
  if 16000 < z1 then 16000 else z1

/-- C4: the blend is exact at both ends of the interpolation window and never
overshoots: at `stepTime = 0` it returns the cached coordinate, at
`stepTime = interval` the target coordinate, and in between a value lying
between cached and target. -/
theorem blend_endpoints_no_overshoot (c t i s : ℚ) (hi : 0 < i)
    (hs0 : 0 ≤ s) (hsi : s ≤ i) :
    blendCoord i 0 c t = some c ∧
    blendCoord i i c t = some t ∧
    ∃ v, blendCoord i s c t = some v ∧ min c t ≤ v ∧ v ≤ max c t := by
  have hne : i ≠ 0 := ne_of_gt hi
  refine ⟨?_, ?_, ?_⟩
  · simp [blendCoord, jsDiv, hne]
  · have hv : (t - c) / i * i + c = t := by
      rw [div_mul_cancel₀ _ hne]
      exact sub_add_cancel t c
    simp [blendCoord, jsDiv, hne, hv]
  · refine ⟨(t - c) / i * s + c, by simp [blendCoord, jsDiv, hne], ?_, ?_⟩
    · rcases le_total c t with hct | htc
      · rw [min_eq_left hct]
        have hq0 : 0 ≤ (t - c) / i := div_nonneg (by linarith) hi.le
        nlinarith
      · rw [min_eq_right htc]
        have hq0 : (t - c) / i ≤ 0 :=
          div_nonpos_of_nonpos_of_nonneg (by linarith) hi.le
        have hqi : (t - c) / i * i = t - c := div_mul_cancel₀ _ hne
        nlinarith
    · rcases le_total c t with hct | htc
      · rw [max_eq_right hct]
        have hq0 : 0 ≤ (t - c) / i := div_nonneg (by linarith) hi.le
        have hqi : (t - c) / i * i = t - c := div_mul_cancel₀ _ hne
        nlinarith
      · rw [max_eq_left htc]
        have hq0 : (t - c) / i ≤ 0 :=
          div_nonpos_of_nonpos_of_nonneg (by linarith) hi.le
        nlinarith

/-- Witness for C4 at concrete values (cached 1, target 5, interval 2). -/
theorem blend_endpoints_no_overshoot_inst :
    blendCoord 2 0 1 5 = some 1 ∧ blendCoord 2 2 1 5 = some 5 ∧
    ∃ v, blendCoord 2 1 1 5 = some v ∧
      min (1 : ℚ) 5 ≤ v ∧ v ≤ max (1 : ℚ) 5 :=
  blend_endpoints_no_overshoot 1 5 2 1 (by norm_num) (by norm_num) (by norm_num)

/-- C5 (code bug): the blend guard is only `stepTime <= intervalTime`; with a
zero measured interval (two ticks in the same millisecond) and a render in
that same millisecond, the division `(target - cached) / intervalTime` is
evaluated with a zero divisor — nothing snaps to the target instead. -/
theorem renderInterpolate_divByZero :
    renderInterpolate 1001 0 0 true [0, 0] [1, 1] [0, 0] = none := by
  norm_num [renderInterpolate, blendBuffer, optionMapList, blendCoord, jsDiv,
    List.range_succ]

/-- C6 counterexample: at exactly 1000 nodes the claim predicts the blending
regime, but the selector is the strict `nodeCounts > 1000`, so the rendered
buffer is assigned the target snapshot directly (result `[4]`) instead of the
blended value (`[2]`). -/
theorem interpolationThreshold_counterexample :
    renderInterpolate 1000 2 1 true [0] [4] [0] = some [4] ∧
    blendBuffer 2 1 [0] [4] 1 = some [2] := by
  constructor
  · norm_num [renderInterpolate]
  · norm_num [blendBuffer, optionMapList, blendCoord, jsDiv, List.range_succ]

theorem blendBuffer_isSome (intervalTime stepTime : ℚ) (cached target : List ℚ)
    (len : ℕ) (hi : intervalTime ≠ 0) :
    ∃ vs, blendBuffer intervalTime stepTime cached target len = some vs := by
  unfold blendBuffer
  induction List.range len with
  | nil => exact ⟨[], rfl⟩
  | cons j js ih =>
    obtain ⟨vs, hvs⟩ := ih
    have hc : blendCoord intervalTime stepTime (cached.getD j 0) (target.getD j 0) =
        some ((target.getD j 0 - cached.getD j 0) / intervalTime * stepTime +
          cached.getD j 0) := by
      simp [blendCoord, jsDiv, hi]
    refine ⟨((target.getD j 0 - cached.getD j 0) / intervalTime * stepTime +
        cached.getD j 0) :: vs, ?_⟩
    simp only [optionMapList, hc, hvs]

/-- C6 (amended): the regime threshold is strict: node counts of at most 1000
(including exactly 1000) get the rendered buffer assigned directly from the
latest snapshot with no smoothing, and only node counts strictly above 1000
run the blending regime. -/
theorem interpolationThreshold_strict (n : ℕ) (intervalTime stepTime : ℚ)
    (layouting : Bool) (cached target current : List ℚ) :
    (n ≤ 1000 →
      renderInterpolate n intervalTime stepTime layouting cached target current =
        some target) ∧
    (1000 < n → stepTime ≤ intervalTime → intervalTime ≠ 0 → layouting = true →
      renderInterpolate n intervalTime stepTime layouting cached target current =
        blendBuffer intervalTime stepTime cached target current.length) := by
  constructor
  · intro hn
    have hlt : ¬1000 < n := by omega
    simp [renderInterpolate, hlt]
  · intro hn hst hi hl
    subst hl
    obtain ⟨vs, hvs⟩ := blendBuffer_isSome intervalTime stepTime cached target
      current.length hi
    simp [renderInterpolate, hn, hst, hvs]

/-- Witness for C6 (amended) at 500 and 1001 nodes. -/
theorem interpolationThreshold_strict_inst :
    renderInterpolate 500 2 1 true [0] [4] [0] = some [4] ∧
    renderInterpolate 1001 2 1 true [0] [4] [0] = blendBuffer 2 1 [0] [4] 1 := by
  refine ⟨(interpolationThreshold_strict 500 2 1 true [0] [4] [0]).1 (by omega), ?_⟩
  exact (interpolationThreshold_strict 1001 2 1 true [0] [4] [0]).2
    (by omega) (by norm_num) (by norm_num) rfl

/-- C10: after the clamp at the top of `render`, the camera z position lies in
`[75, 16000]`: values below 75 are raised to 75, values above 16000 lowered to
16000, values in range are unchanged (`clampCameraZ z = max 75 (min 16000 z)`). -/
theorem cameraZ_clamped (z : ℚ) :
    75 ≤ clampCameraZ z ∧ clampCameraZ z ≤ 16000 ∧
    clampCameraZ z = max 75 (min 16000 z) := by
  simp only [clampCameraZ]
  by_cases h1 : z < 75
  · have h2 : ¬(16000 : ℚ) < 75 := by norm_num
    simp only [if_pos h1, if_neg h2]
    refine ⟨le_refl _, by norm_num, ?_⟩
    rw [eq_comm, max_eq_left]
    exact le_trans (min_le_right _ _) (le_of_lt h1)
  · by_cases h2 : 16000 < z
    · simp only [if_neg h1, if_pos h2]
      refine ⟨by norm_num, le_refl _, ?_⟩
      rw [min_eq_left (le_of_lt h2), eq_comm, max_eq_right]
      norm_num
    · simp only [if_neg h1, if_neg h2]
      push_neg at h1 h2
      refine ⟨h1, h2, ?_⟩
      rw [min_eq_right h2, eq_comm, max_eq_right h1]

/-! ## Viewport culling (src/index.ts 755-779) -/

/-- The visible world-space rectangle. -/
structure ViewportRect where
  left : ℚ
  right : ℚ
  top : ℚ
  bottom : ℚ
  deriving Repr, DecidableEq

/-- The camera/buffer state read by the culling pass.  `tanHalfFov` embeds the
constant `Math.tan(Math.PI / 180 * 22.5)` (half of the 45° field of view). -/
structure CullState where
  nodes : List String
  targetPositionStatus : List ℚ
  currentPositionStatus : List ℚ
  camX : ℚ
  camY : ℚ
  camZ : ℚ
  aspect : ℚ
  tanHalfFov : ℚ
  deriving Repr

/-- `getViewPortRect` (lines 770-779): `offsetY = camera.z * tan(22.5°)`,
`offsetX = offsetY * aspect`, camera-centered box. -/
def getViewPortRect (st : CullState) : ViewportRect :=
  let offsetY := st.camZ * st.tanHalfFov
  let offsetX := offsetY * st.aspect
  { left := st.camX - offsetX
    right := st.camX + offsetX
    top := st.camY + offsetY
    bottom := st.camY - offsetY }

/-- The membership test of line 759 (all four bounds inclusive). -/
def nodeVisible (r : ViewportRect) (x y : ℚ) : Prop :=
  r.left ≤ x ∧ x ≤ r.right ∧ r.bottom ≤ y ∧ y ≤ r.top

instance (r : ViewportRect) (x y : ℚ) : Decidable (nodeVisible r x y) := by
  unfold nodeVisible
  infer_instance

/-- `getAllVisibleNodes` (lines 755-768): linear scan over all node indices,
testing the node's entry in `targetPositionStatus` (the simulation's target
positions, not the interpolated `currentPositionStatus`) against the rect. -/
def getAllVisibleNodes (st : CullState) : List (String × ℚ × ℚ) :=
  let r := getViewPortRect st
  (List.range st.nodes.length).filterMap fun i =>
    if nodeVisible r (st.targetPositionStatus.getD (2 * i) 0)
        (st.targetPositionStatus.getD (2 * i + 1) 0) then
      some (st.nodes.getD i "", st.targetPositionStatus.getD (2 * i) 0,
        st.targetPositionStatus.getD (2 * i + 1) 0)
    else none

/-- C7: a node is returned by the visibility scan exactly when its target
position lies within the camera-centered box of half-height
`cameraZ * tan(fov/2)` and half-width `half-height * aspect`, bounds
inclusive on all four edges (so a node exactly on a boundary is included, and
one outside by any positive amount is excluded). -/
theorem visibleNodes_rect_membership (st : CullState) (i : ℕ)
    (hi : i < st.nodes.length) :
    (st.nodes.getD i "", st.targetPositionStatus.getD (2 * i) 0,
        st.targetPositionStatus.getD (2 * i + 1) 0) ∈ getAllVisibleNodes st ↔
      |st.targetPositionStatus.getD (2 * i) 0 - st.camX| ≤
          st.camZ * st.tanHalfFov * st.aspect ∧
      |st.targetPositionStatus.getD (2 * i + 1) 0 - st.camY| ≤
          st.camZ * st.tanHalfFov := by
  have hrect : ∀ x y : ℚ, nodeVisible (getViewPortRect st) x y ↔
      (|x - st.camX| ≤ st.camZ * st.tanHalfFov * st.aspect ∧
        |y - st.camY| ≤ st.camZ * st.tanHalfFov) := by
    intro x y
    simp only [nodeVisible, getViewPortRect, abs_le]
    constructor
    · rintro ⟨h1, h2, h3, h4⟩
      exact ⟨⟨by linarith, by linarith⟩, ⟨by linarith, by linarith⟩⟩
    · rintro ⟨⟨h1, h2⟩, h3, h4⟩
      exact ⟨by linarith, by linarith, by linarith, by linarith⟩
  constructor
  · intro hmem
    simp only [getAllVisibleNodes, List.mem_filterMap, List.mem_range] at hmem
    obtain ⟨j, hj, hfj⟩ := hmem
    by_cases hc : nodeVisible (getViewPortRect st)
        (st.targetPositionStatus.getD (2 * j) 0)
        (st.targetPositionStatus.getD (2 * j + 1) 0)
    · rw [if_pos hc] at hfj
      have htup := Option.some.inj hfj
      have hx := congrArg (fun p : String × ℚ × ℚ => p.2.1) htup
      have hy := congrArg (fun p : String × ℚ × ℚ => p.2.2) htup
      simp only at hx hy
      rw [hx, hy] at hc
      exact (hrect _ _).mp hc
    · rw [if_neg hc] at hfj
      exact absurd hfj (by simp)
  · intro habs
    have hc := (hrect _ _).mpr habs
    simp only [getAllVisibleNodes, List.mem_filterMap, List.mem_range]
    exact ⟨i, hi, by rw [if_pos hc]⟩

/-- Witness state for C7: one node exactly on the right boundary. -/
def w7state : CullState :=
  { nodes := ["a"]
    targetPositionStatus := [3, 0]
    currentPositionStatus := [3, 0]
    camX := 0
    camY := 0
    camZ := 3
    aspect := 1
    tanHalfFov := 1 }

/-- Witness for C7: the boundary node is visible. -/
theorem visibleNodes_rect_membership_inst :
    ("a", (3 : ℚ), (0 : ℚ)) ∈ getAllVisibleNodes w7state := by
  apply (visibleNodes_rect_membership w7state 0 (by norm_num [w7state])).mpr
  constructor <;> norm_num [w7state]

/-! ## Highlight management (src/index.ts 809-967) -/

/-- Scene objects modelled by their `name`; `highlighted` is the id field. -/
structure HLState where
  scene : List String
  highlighted : Option String
  deriving Repr, DecidableEq

/-- `scene.getObjectByName(n)`: first object with that name, if any. -/
def getObjectByName (scene : List String) (n : String) : Option String :=
  if n ∈ scene then some n else none

/-- `scene.remove(obj)`: removes the first occurrence; a `remove(undefined)`
from a failed lookup is a no-op. -/
def sceneRemove (scene : List String) : Option String → List String
  | none => scene
  | some n => scene.erase n

/-- `unhighlight` (lines 816-826): looks up the names `hlNodes`, `hlLines`,
`hlText`, `hlArrows` and removes whatever was found, then clears
`highlighted`. -/
def unhighlight (st : HLState) : HLState :=
  let node := getObjectByName st.scene "hlNodes"
  let line := getObjectByName st.scene "hlLines"
  let text := getObjectByName st.scene "hlText"
  let arrow := getObjectByName st.scene "hlArrows"
  { scene := sceneRemove (sceneRemove (sceneRemove (sceneRemove st.scene node)
      line) text) arrow
    highlighted := none }

/-- `addHighLight` (lines 829-967): builds fresh meshes and adds them to the
scene under the names `hlNodes` (line 866), `hlLine` (line 890), `hlArrow`
(line 937) and `hlText` (line 965), in that order.  It removes nothing. -/
def addHighLight (st : HLState) (sourceId : String) : HLState :=
  { st with scene := st.scene ++ ["hlNodes", "hlLine", "hlArrow", "hlText"] }

/-- `highlight` (lines 809-814): no-op when the id is already highlighted,
otherwise `addHighLight` and record the id. -/
def highlight (st : HLState) (id : String) : HLState :=
  if st.highlighted = some id then st
  else { addHighLight st id with highlighted := some id }

/-- C9 (code bug): highlighting a new id never removes the previous highlight
set (after `highlight "a"` then `highlight "b"` the scene holds two `hlNodes`
objects), and `unhighlight` removes only the names `hlNodes`/`hlText` — the
meshes added as `hlLine` and `hlArrow` survive because it looks up `hlLines`
and `hlArrows`.  Only the claim's last part holds: `unhighlight` on an empty
scene is a safe no-op. -/
theorem highlight_stale_objects :
    (highlight (highlight ⟨[], none⟩ "a") "b").scene.count "hlNodes" = 2 ∧
    (unhighlight (highlight ⟨[], none⟩ "a")).scene = ["hlLine", "hlArrow"] ∧
    (unhighlight ⟨[], none⟩).scene = [] ∧
    (unhighlight ⟨[], none⟩).highlighted = none := by
  refine ⟨?_, ?_, ?_, ?_⟩ <;> decide

end D3ForceGraph
